import Mathlib

/-!
A verification of `build_geom_dataset.py`.

A shallow embedding of the data-preparation and batching engine of the
GEOM-drugs dataset builder, together with theorems settling the frozen
claims about it.

Modelling conventions:
* numpy float arrays are embedded as lists of rationals (`List ℚ`); a row of
  the flattened atom table is a `List ℚ` whose column layout matches the
  source (`[molecule_id, atomic_number, x, y, z, qed, logp, sas, asphericity]`
  for the saved table, the same without the leading id column for the
  per-molecule blocks handed to the transform);
* `np.split`, boundary detection, the permutation reindexing, the dataset
  constructor, the batch sampler loop and the transform are translated
  function by function from the source;
* python `int()` applied to a nonnegative value is the floor, embedded by
  `pyInt`;
* `random.shuffle` with a fixed random state is embedded as an explicit
  permutation-producing function passed as a parameter.
-/

namespace EDM

/-- A row of a numpy float matrix: one atom of the table. -/
abbrev Row : Type := List ℚ

/-- Column 0 of a table row: the molecule id (`all_data[:, 0]`). -/
def molId (r : Row) : ℚ := r.getD 0 0

/-- Embeds `np.split(l, idxs)`: cut `l` at the (ascending) absolute positions
`idxs`, producing `idxs.length + 1` sections `l[0:i₁], l[i₁:i₂], …, l[iₖ:]`.
Note that `np.split(l, [])` is `[l]`: it always returns one more section
than there are cut points, even for an empty input. -/
def npSplit (l : List α) (idxs : List ℕ) : List (List α) :=
  match idxs with
  | [] => [l]
  | i :: is => l.take i :: npSplit (l.drop i) (is.map (fun j => j - i))
  termination_by idxs.length
  decreasing_by simp

/-- Unfolding lemma: `np.split` with no cut point returns the whole input as
its single section. -/
theorem npSplit_nil (l : List α) : npSplit l [] = [l] := by
  rw [npSplit.eq_def]

/-- Unfolding lemma: `np.split` at a first cut point `i` takes the prefix of
length `i` and continues on the rest with the remaining cut points made
relative. -/
theorem npSplit_cons (l : List α) (i : ℕ) (is : List ℕ) :
    npSplit l (i :: is) = l.take i :: npSplit (l.drop i) (is.map (fun j => j - i)) := by
  rw [npSplit.eq_def]

/-- Embeds `np.nonzero(mol_id[:-1] - mol_id[1:])[0] + 1`: the positions at which the
molecule id changes between consecutive rows (each shifted by one, so that the
position names the first row of the new molecule). -/
def idBoundaries (rows : List Row) : List ℕ :=
  ((List.range (rows.length - 1)).filter
      (fun p => decide (molId (rows.getD p []) - molId (rows.getD (p + 1) []) ≠ 0))).map
    (fun p => p + 1)

/-- Python `int()` on a rational: truncation toward zero. -/
def pyInt (q : ℚ) : ℤ := if 0 ≤ q then ⌊q⌋ else -⌊-q⌋

/-- Embeds `data_list = [data_list[i] for i in perm if i < len(data_list)]`:
reindex `l` by the permutation artifact, silently skipping entries that are
out of range for the current list. -/
def permReindex (perm : List ℕ) (l : List α) : List α :=
  perm.filterMap (fun i => if i < l.length then l.get? i else none)

/-- The three partitions returned by `load_split_data`. -/
structure SplitResult (α : Type) where
  train : List α
  val : List α
  test : List α
deriving Repr, DecidableEq

/-- The tail of `load_split_data`:
`val_index = int(num_mol * val_proportion)`,
`test_index = val_index + int(num_mol * test_proportion)`,
`val, test, train = np.split(data_list, [val_index, test_index])`,
returned in the order `(train, val, test)`. -/
def splitTrainValTest (data_list : List α) (valP testP : ℚ) : SplitResult α :=
  let num_mol : ℕ := data_list.length
  let val_index : ℕ := (pyInt ((num_mol : ℚ) * valP)).toNat
  let test_index : ℕ := val_index + (pyInt ((num_mol : ℚ) * testP)).toNat
  let parts := npSplit data_list [val_index, test_index]
  { train := parts.getD 2 [], val := parts.getD 0 [], test := parts.getD 1 [] }

/-! ## Conformer extraction (`extract_conformers`) -/

/-- One entry of a `conformers` record in a GEOM archive: a total energy and
an opaque 3D structure (atomic numbers with coordinates). -/
structure Conformer where
  totalenergy : ℚ
  rd_mol : List (ℕ × ℚ × ℚ × ℚ)
deriving Repr, DecidableEq

/-- Embeds `np.argsort` on a list of rational keys, returning index positions whose
keys are ascending.  numpy uses its default comparison sort here; ties are
broken in an implementation-defined way, embedded with a deterministic
comparison sort (see the note at `npArgsortNat`). -/
def npArgsortQ (keys : List ℚ) : List ℕ :=
  List.insertionSort (fun i j => keys.getD i 0 ≤ keys.getD j 0) (List.range keys.length)

/-- The conformer-selection step of `extract_conformers`:
compute `all_energies` and their `argsort` (both discarded by the source:
the assignment of `argsort[:args.conformations]` is commented out), then take
`lowest_energies = random.shuffle(list(range(len(conformers))))[:conformations]`.
The shuffle with its seeded random state is embedded as the explicit
function `shuffle`. -/
def selectConformerIndices (shuffle : List ℕ → List ℕ) (conformations : ℕ)
    (conformers : List Conformer) : List ℕ :=
  let all_energies := conformers.map (fun c => c.totalenergy)
  let argsort := npArgsortQ all_energies
  let lowest_energies := shuffle (List.range conformers.length)
  have _ := argsort
  lowest_energies.take conformations

/-- The per-molecule property vector built by `extract_properties`: a python
dict with insertion order `qed, logp, sas, Asphericity`, converted to an
array in that order. -/
structure MolProperties where
  qed : ℚ
  logp : ℚ
  sas : ℚ
  asphericity : ℚ
deriving Repr, DecidableEq

/-- One row of a per-molecule block as assembled by `extract_conformers`
after the molecule-id column has been stripped by `load_split_data`
(`conformers = all_data[:, 1:]`): `np.hstack((atom_type, coords))` followed by
the broadcast property vector. -/
def conformerRow (atomic_number x y z : ℚ) (props : MolProperties) : Row :=
  [atomic_number, x, y, z, props.qed, props.logp, props.sas, props.asphericity]

/-! ## `GeomDrugsDataset` -/

/-- Embeds `np.argsort` on natural-number keys (the block row counts).  numpy is
called with its default `kind` (an unstable introsort); the embedding uses a
deterministic comparison sort over the index list.  The two agree on the
multiset of keys and on sortedness; they may order tied indices differently
(numpy leaves the tie order unspecified), which only claim C6 depends on. -/
def npArgsortNat (keys : List ℕ) : List ℕ :=
  List.insertionSort (fun i j => keys.getD i 0 ≤ keys.getD j 0) (List.range keys.length)

/-- Embeds `np.sort` on natural numbers: the ascending reordering (this list is
uniquely determined, whatever sort numpy uses). -/
def npSortNat (l : List ℕ) : List ℕ :=
  List.insertionSort (fun a b => a ≤ b) l

/-- Embeds `np.unique(a, return_index=True)[1]` for an input that is already sorted
ascending: numpy stable-argsorts `a` (the identity permutation on a sorted
input) and keeps the positions whose value differs from the value one to the
left, always including position 0.  So the result is position 0 followed by
every position at which the value changes. -/
def npUniqueFirstIndices (a : List ℕ) : List ℕ :=
  (List.range a.length).filter
    (fun p => p == 0 || !(a.getD (p - 1) 0 == a.getD p 0))

/-- The state built by `GeomDrugsDataset.__init__`: the block list reordered
by `np.argsort` of the row counts, and
`split_indices = np.unique(np.sort(lengths), return_index=True)[1][1:]`. -/
structure GeomDataset (β : Type) where
  data_list : List (List β)
  split_indices : List ℕ
deriving Repr

/-- Embeds `GeomDrugsDataset.__init__` on a block list (a block is a list of rows
of any row type `β`; only `shape[0]`, the row count, is inspected).
`[data_list[i] for i in argsort]` is embedded with `List.get?`; every
argsort entry is in range, so no lookup fails. -/
def geomDrugsDatasetInit (data_list : List (List β)) : GeomDataset β :=
  let lengths := data_list.map List.length
  let argsort := npArgsortNat lengths
  { data_list := argsort.filterMap (fun i => data_list.get? i)
    split_indices := (npUniqueFirstIndices (npSortNat lengths)).drop 1 }

/-! ## `CustomBatchSampler` -/

/-- The loop body of `CustomBatchSampler.__iter__`: accumulate indices into
`batch`; emit when the batch is full (`len(batch) == batch_size`) or when the
next index starts a new size group (`idx + 1 in split_indices`); after the
sampler is exhausted, emit the remainder unless `drop_last`. -/
def customBatchesAux (batch_size : ℕ) (drop_last : Bool) (split_indices : List ℕ) :
    List ℕ → List ℕ → List (List ℕ)
  | [], batch => if 0 < batch.length ∧ drop_last = false then [batch] else []
  | idx :: rest, batch =>
    let batch' := batch ++ [idx]
    if batch'.length = batch_size ∨ (idx + 1) ∈ split_indices then
      batch' :: customBatchesAux batch_size drop_last split_indices rest []
    else
      customBatchesAux batch_size drop_last split_indices rest batch'

/-- Embeds `list(CustomBatchSampler(sampler, batch_size, drop_last, split_indices))`
for a sampler emitting the index stream `sampler`. -/
def customBatchSamplerIter (batch_size : ℕ) (drop_last : Bool)
    (split_indices : List ℕ) (sampler : List ℕ) : List (List ℕ) :=
  customBatchesAux batch_size drop_last split_indices sampler []

/-- Embeds `SequentialSampler(dataset)`: the index stream `0, 1, …, len - 1`. -/
def sequentialSampler (datasetLen : ℕ) : List ℕ := List.range datasetLen

/-! ## `GeomDrugsTransform` -/

/-- Embeds `torch.eye(n, dtype=torch.bool)` as an entry predicate. -/
def torchEyeBool (i j : ℕ) : Bool := i == j

/-- One entry of the sequential-mode edge mask:
`edge_mask = torch.ones((n, n))` followed by
`edge_mask[~torch.eye(n, dtype=torch.bool)] = 0` — the entries selected by
the boolean mask `~eye` are overwritten with 0, the rest keep their initial
value 1. -/
def seqEdgeMaskEntry (i j : ℕ) : ℚ :=
  if !(torchEyeBool i j) then 0 else 1

/-- Embeds `.flatten()` of an `n × n` tensor given by an entry function:
row-major order. -/
def flatten2 (n : ℕ) (entry : ℕ → ℕ → ℚ) : List ℚ :=
  ((List.range n).map (fun i => (List.range n).map (fun j => entry i j))).flatten

/-- The record produced by `GeomDrugsTransform.__call__`:
`charges` is an `n × 1` zero tensor or a length-0 tensor, `atom_mask` a
length-`n` vector, `edge_mask` present only in sequential mode. -/
structure TransformOutput where
  positions : List (List ℚ)
  one_hot : List (List Bool)
  context : List (List ℚ)
  charges : List (List ℚ)
  atom_mask : List ℚ
  edge_mask : Option (List ℚ)
deriving Repr, DecidableEq

/-- Embeds `GeomDrugsTransform.__call__` on one block (rows without the id column):
`positions = data[:, 1:4]`, `one_hot = data[:, 0].astype(int)[:, None] ==
atomic_number_list`, `context = data[:, 5:6]`, `charges` a zero column or
empty, `atom_mask = torch.ones(n)`, plus the sequential-mode `edge_mask`.
numpy slices are lenient on short rows, hence `drop`/`take`. -/
def geomDrugsTransform (atomic_number_list : List ℚ) (include_charges : Bool)
    (sequential : Bool) (data : List Row) : TransformOutput :=
  let n := data.length
  { positions := data.map (fun r => (r.drop 1).take 3)
    one_hot := data.map
      (fun r => atomic_number_list.map (fun a => ((pyInt (r.getD 0 0) : ℚ) == a)))
    context := data.map (fun r => (r.drop 5).take 1)
    charges := if include_charges then List.replicate n [(0 : ℚ)] else []
    atom_mask := List.replicate n (1 : ℚ)
    edge_mask := if sequential then some (flatten2 n seqEdgeMaskEntry) else none }

/-! ## `collate_fn` (strategy B) -/

/-- Modelled from the spec: `qm9.data.collate.batch_stack` (the `qm9.data`
module is not part of `src/`) stacks the per-item tensors of one batch into a
single tensor, padding the variable atom-count dimension with zeros up to the
maximum atom count of the batch. -/
def batch_stack (props : List (List ℚ)) : List (List ℚ) :=
  let n := (props.map List.length).foldr max 0
  props.map (fun p => p ++ List.replicate (n - p.length) (0 : ℚ))

/-- The padded width used by `batch_stack`. -/
def maxLen (props : List (List ℚ)) : ℕ := (props.map List.length).foldr max 0

/-- The edge-mask computation of `collate_fn`:
`edge_mask = atom_mask.unsqueeze(1) * atom_mask.unsqueeze(2)` (the entry at
`[b, i, j]` is `atom_mask[b, j] * atom_mask[b, i]`), then
`edge_mask *= ~eye(n)` (zero the diagonal), then
`edge_mask.view(batch_size * n_nodes * n_nodes, 1)` (row-major flattening;
the trailing dimension of size 1 is dropped in the embedding). -/
def collateEdgeMask (masks : List (List ℚ)) : List ℚ :=
  let atom_mask := batch_stack masks
  let n_nodes := (atom_mask.headD []).length
  ((atom_mask.map (fun row =>
      (List.range n_nodes).map (fun i =>
        (List.range n_nodes).map (fun j =>
          (row.getD j 0 * row.getD i 0) *
            (if torchEyeBool i j then 0 else 1))))).flatten).flatten

/-! ## Claim C8: permutation reindexing drops out-of-range entries -/

/-- Claim C8: For every permutation artifact and block list, `load_split_data`
drops (by skipping, without raising any error) exactly those permutation
entries whose index is at least the current number of blocks, and reindexes
the block list by the remaining entries in permutation order: an out-of-range
entry anywhere in the permutation contributes nothing, an in-range entry `i`
contributes exactly the block at position `i`, in place. -/
theorem C8_permReindex_skips_oob (l : List α) (p₁ p₂ : List ℕ) (i : ℕ) :
    (l.length ≤ i →
      permReindex (p₁ ++ i :: p₂) l = permReindex p₁ l ++ permReindex p₂ l)
    ∧ ∀ h : i < l.length,
      permReindex (p₁ ++ i :: p₂) l
        = permReindex p₁ l ++ l.get ⟨i, h⟩ :: permReindex p₂ l := by
  constructor
  · intro h
    simp [permReindex, List.filterMap_append, List.filterMap_cons, Nat.not_lt.mpr h]
  · intro h
    simp [permReindex, List.filterMap_append, List.filterMap_cons, h,
      List.get?_eq_get h]

/-- Witness for C8 at a concrete input: in `[1, 5, 0]` over a 2-element list
the entry `5` is skipped and the entry `0` is kept in place. -/
theorem C8_permReindex_skips_oob_witness :
    permReindex ([1] ++ 5 :: [0]) [(10 : ℚ), 20]
      = permReindex [1] [(10 : ℚ), 20] ++ permReindex [0] [(10 : ℚ), 20]
    ∧ permReindex ([1] ++ 0 :: [2]) [(10 : ℚ), 20]
      = permReindex [1] [(10 : ℚ), 20] ++
          [(10 : ℚ), 20].get ⟨0, by decide⟩ :: permReindex [2] [(10 : ℚ), 20] :=
  ⟨(C8_permReindex_skips_oob [(10 : ℚ), 20] [1] [0] 5).1 (by decide),
   (C8_permReindex_skips_oob [(10 : ℚ), 20] [1] [2] 0).2 (by decide)⟩

/-! ## Claim C4: the train/val/test partition -/

/-- Claim C4: For a block list of length `n` and nonnegative fractions summing
to at most one, `load_split_data` returns `val = blocks[:v]`,
`test = blocks[v:v+t]`, `train = blocks[v+t:]` with `v = ⌊n·val_frac⌋` and
`t = ⌊n·test_frac⌋`; the partition sizes are `v`, `t` and `n - v - t`, and
the three parts concatenate back to the whole permuted list (pairwise
disjoint slices covering every molecule exactly once). -/
theorem C4_splitTrainValTest (l : List α) (valP testP : ℚ)
    (hv : 0 ≤ valP) (ht : 0 ≤ testP) (hsum : valP + testP ≤ 1) :
    (splitTrainValTest l valP testP).val
        = l.take (⌊(l.length : ℚ) * valP⌋).toNat
    ∧ (splitTrainValTest l valP testP).test
        = (l.drop (⌊(l.length : ℚ) * valP⌋).toNat).take
            (⌊(l.length : ℚ) * testP⌋).toNat
    ∧ (splitTrainValTest l valP testP).train
        = l.drop ((⌊(l.length : ℚ) * valP⌋).toNat + (⌊(l.length : ℚ) * testP⌋).toNat)
    ∧ (splitTrainValTest l valP testP).val.length
        = (⌊(l.length : ℚ) * valP⌋).toNat
    ∧ (splitTrainValTest l valP testP).test.length
        = (⌊(l.length : ℚ) * testP⌋).toNat
    ∧ (splitTrainValTest l valP testP).train.length
        = l.length - (⌊(l.length : ℚ) * valP⌋).toNat - (⌊(l.length : ℚ) * testP⌋).toNat
    ∧ (splitTrainValTest l valP testP).val ++ (splitTrainValTest l valP testP).test
        ++ (splitTrainValTest l valP testP).train = l := by
  have hn : (0 : ℚ) ≤ (l.length : ℚ) := by positivity
  set n := l.length with hnn
  set v : ℕ := (⌊(n : ℚ) * valP⌋).toNat with hvdef
  set t : ℕ := (⌊(n : ℚ) * testP⌋).toNat with htdef
  have hvf : 0 ≤ ⌊(n : ℚ) * valP⌋ := Int.floor_nonneg.mpr (mul_nonneg hn hv)
  have htf : 0 ≤ ⌊(n : ℚ) * testP⌋ := Int.floor_nonneg.mpr (mul_nonneg hn ht)
  have hvt : v + t ≤ n := by
    have h1 : ⌊(n : ℚ) * valP⌋ + ⌊(n : ℚ) * testP⌋ ≤ ⌊(n : ℚ) * valP + (n : ℚ) * testP⌋ := by
      refine Int.le_floor.mpr ?_
      push_cast
      exact add_le_add (Int.floor_le _) (Int.floor_le _)
    have h2 : ⌊(n : ℚ) * valP + (n : ℚ) * testP⌋ ≤ (n : ℤ) := by
      rw [← mul_add]
      calc ⌊(n : ℚ) * (valP + testP)⌋ ≤ ⌊(n : ℚ) * 1⌋ := by
              refine Int.floor_le_floor ?_
              exact mul_le_mul_of_nonneg_left hsum hn
        _ = (n : ℤ) := by rw [mul_one]; exact Int.floor_natCast n
    omega
  have hpyv : (pyInt ((n : ℚ) * valP)).toNat = v := by
    rw [pyInt, if_pos (mul_nonneg hn hv)]
  have hpyt : (pyInt ((n : ℚ) * testP)).toNat = t := by
    rw [pyInt, if_pos (mul_nonneg hn ht)]
  have hparts : npSplit l [v, v + t] =
      [l.take v, (l.drop v).take t, l.drop (v + t)] := by
    rw [npSplit_cons]
    simp only [List.map_cons, List.map_nil, Nat.add_sub_cancel_left]
    rw [npSplit_cons]
    simp only [List.map_nil]
    rw [npSplit_nil]
    simp [List.drop_drop]
  have hres : splitTrainValTest l valP testP =
      { train := l.drop (v + t), val := l.take v, test := (l.drop v).take t } := by
    rw [splitTrainValTest]
    simp only [hpyv, hpyt, ← hnn]
    rw [hparts]
    rfl
  rw [hres]
  refine ⟨rfl, rfl, rfl, ?_, ?_, ?_, ?_⟩
  · simp [List.length_take]
    omega
  · simp [List.length_take, List.length_drop]
    omega
  · simp [List.length_drop]
    omega
  · simp only
    rw [← List.drop_drop, List.append_assoc, List.take_append_drop,
      List.take_append_drop]

/-- Witness for C4: the scenario of the spec, 10 blocks with
`val_frac = test_frac = 1/10`, giving sizes 1, 1, 8. -/
theorem C4_splitTrainValTest_witness :
    (0 : ℚ) ≤ 1 / 10 ∧ (1 / 10 : ℚ) + 1 / 10 ≤ 1 ∧
    (splitTrainValTest [0, 1, 2, 3, 4, 5, 6, 7, 8, 9] (1 / 10) (1 / 10)).val
      = List.take (⌊((10 : ℕ) : ℚ) * (1 / 10)⌋).toNat [0, 1, 2, 3, 4, 5, 6, 7, 8, 9] := by
  refine ⟨by norm_num, by norm_num, ?_⟩
  have h := C4_splitTrainValTest (List.range 10) (1 / 10) (1 / 10)
    (by norm_num) (by norm_num) (by norm_num)
  have := h.1
  simpa [List.range_succ] using this

/-! ## Claim C9: conformer selection ignores the energies -/

/-- Claim C9: Conformer selection is independent of the computed energies: with
the same random state (the same `shuffle` function), two conformer lists that
agree on everything except their `totalenergy` values yield identical
selected indices; at most `conformations` conformers are selected, and the
indices are drawn from the full conformer list (every selected index is a
valid position of the list, not a position of the discarded energy-sorted
order). -/
theorem C9_selection_energy_independent (shuffle : List ℕ → List ℕ)
    (hshuffle : ∀ l : List ℕ, (shuffle l).Perm l) (conformations : ℕ)
    (cs cs' : List Conformer)
    (hsame : cs.map (fun c => c.rd_mol) = cs'.map (fun c => c.rd_mol)) :
    selectConformerIndices shuffle conformations cs
      = selectConformerIndices shuffle conformations cs'
    ∧ (selectConformerIndices shuffle conformations cs).length ≤ conformations
    ∧ ∀ i ∈ selectConformerIndices shuffle conformations cs, i < cs.length := by
  have hlen : cs.length = cs'.length := by
    have h := congrArg List.length hsame
    simp only [List.length_map] at h
    exact h
  refine ⟨?_, ?_, ?_⟩
  · simp [selectConformerIndices, hlen]
  · simp [selectConformerIndices]
  · intro i hi
    have h1 : i ∈ shuffle (List.range cs.length) := by
      simpa [selectConformerIndices] using List.mem_of_mem_take hi
    have h2 : i ∈ List.range cs.length := (hshuffle (List.range cs.length)).mem_iff.mp h1
    exact List.mem_range.mp h2

/-- Witness for C9: two three-conformer lists with different energies, a
reversing shuffle, at most two selections. -/
theorem C9_selection_energy_independent_witness :
    (∀ l : List ℕ, (List.reverse l).Perm l) ∧
    selectConformerIndices List.reverse 2 [⟨1, []⟩, ⟨0, []⟩, ⟨5, []⟩]
      = selectConformerIndices List.reverse 2 [⟨7, []⟩, ⟨3, []⟩, ⟨2, []⟩] ∧
    (selectConformerIndices List.reverse 2 [⟨1, []⟩, ⟨0, []⟩, ⟨5, []⟩]).length ≤ 2 :=
  ⟨fun l => l.reverse_perm,
   (C9_selection_energy_independent List.reverse (fun l => l.reverse_perm) 2
      [⟨1, []⟩, ⟨0, []⟩, ⟨5, []⟩] [⟨7, []⟩, ⟨3, []⟩, ⟨2, []⟩] (by decide)).1,
   (C9_selection_energy_independent List.reverse (fun l => l.reverse_perm) 2
      [⟨1, []⟩, ⟨0, []⟩, ⟨5, []⟩] [⟨7, []⟩, ⟨3, []⟩, ⟨2, []⟩] (by decide)).2.1⟩

/-! ## Claim C10: the context column -/

/-- Claim C10: The context emitted by the transform is exactly column 5 of the
input block (counting the atomic-number column as column 0): it equals
`data[:, 5:6]`, any two blocks agreeing on that column produce the same
context whatever their other columns hold, and on a row laid out by
`extract_conformers` column 5 is `logp`, the second per-molecule property. -/
theorem C10_context_is_column_five (atomic_number_list : List ℚ)
    (include_charges sequential : Bool) (data data' : List Row) :
    (geomDrugsTransform atomic_number_list include_charges sequential data).context
      = data.map (fun r => (r.drop 5).take 1)
    ∧ (data.map (fun r => (r.drop 5).take 1) = data'.map (fun r => (r.drop 5).take 1) →
        (geomDrugsTransform atomic_number_list include_charges sequential data).context
          = (geomDrugsTransform atomic_number_list include_charges sequential data').context)
    ∧ ∀ (a x y z : ℚ) (props : MolProperties),
        ((conformerRow a x y z props).drop 5).take 1 = [props.logp] := by
  refine ⟨rfl, ?_, ?_⟩
  · intro h
    simpa [geomDrugsTransform] using h
  · intro a x y z props
    rfl

/-- Witness for C10: two one-row blocks that differ everywhere except in
column 5 get the same context. -/
theorem C10_context_is_column_five_witness :
    ([[(6 : ℚ), 0, 0, 0, 1, 2, 3, 4]].map (fun r => (r.drop 5).take 1)
        = [[(7 : ℚ), 9, 9, 9, 9, 2, 9, 9]].map (fun r => (r.drop 5).take 1))
    ∧ (geomDrugsTransform [6] false false [[(6 : ℚ), 0, 0, 0, 1, 2, 3, 4]]).context
        = (geomDrugsTransform [6] false false [[(7 : ℚ), 9, 9, 9, 9, 2, 9, 9]]).context :=
  ⟨by decide,
   (C10_context_is_column_five [6] false false
      [[(6 : ℚ), 0, 0, 0, 1, 2, 3, 4]] [[(7 : ℚ), 9, 9, 9, 9, 2, 9, 9]]).2.1 (by decide)⟩

/-! ## Claim C1: the sequential-mode edge mask (code bug) -/

/-- Claim C1, code evaluation: In sequential mode the source builds
`edge_mask = torch.ones((n, n))` and then executes
`edge_mask[~torch.eye(n, dtype=torch.bool)] = 0`, which overwrites the
OFF-diagonal entries with zero and leaves the diagonal at one: the emitted
mask is the identity matrix, not its complement.  Evaluated on a two-row
block the flattened mask is `[1, 0, 0, 1]` (the claim and the spec instead
require `[0, 1, 1, 0]`); in general every entry is `1` on the diagonal and
`0` off it. -/
theorem C1_sequential_edge_mask_is_identity :
    (geomDrugsTransform [6] false true
        [[(6 : ℚ), 0, 0, 0, 1, 2, 3, 4], [7, 1, 1, 1, 1, 2, 3, 4]]).edge_mask
      = some [1, 0, 0, 1]
    ∧ ∀ i j : ℕ, seqEdgeMaskEntry i j = if i = j then 1 else 0 := by
  constructor
  · rfl
  · intro i j
    by_cases h : i = j <;> simp [seqEdgeMaskEntry, torchEyeBool, h]

/-! ## Claim C3: the batch-level edge mask of strategy B -/

/-- Every length occurring in `props` is at most the padded width. -/
theorem length_le_maxLen (props : List (List ℚ)) (p : List ℚ) (hp : p ∈ props) :
    p.length ≤ maxLen props := by
  induction props with
  | nil => cases hp
  | cons q qs ih =>
    rcases List.mem_cons.mp hp with rfl | hp
    · simp only [maxLen, List.map_cons, List.foldr_cons]
      exact le_max_left _ _
    · simp only [maxLen, List.map_cons, List.foldr_cons]
      exact le_trans (ih hp) (le_max_right _ _)

/-- Reading anywhere in a zero block gives zero (also past its end, where the
default applies). -/
theorem getD_replicate_zero (c p : ℕ) : (List.replicate c (0 : ℚ)).getD p 0 = 0 := by
  rcases lt_or_ge p c with h | h
  · rw [List.getD_eq_getElem _ _ (by simpa using h)]
    exact List.getElem_replicate _ _
  · exact List.getD_eq_default _ _ (by simpa using h)

/-- Reading the zero-padded all-ones atom mask of a molecule with `m` real
atoms: position `j` holds `1` exactly when atom `j` is real. -/
theorem getD_padded_mask (m n j : ℕ) :
    (List.replicate m (1 : ℚ) ++ List.replicate (n - m) 0).getD j 0
      = if j < m then 1 else 0 := by
  by_cases h : j < m
  · rw [List.getD_append _ _ _ _ (by simpa using h), if_pos h,
      List.getD_eq_getElem _ _ (by simpa using h)]
    exact List.getElem_replicate _ _
  · rw [List.getD_append_right _ _ _ _ (by simpa using Nat.not_lt.mp h), if_neg h]
    exact getD_replicate_zero _ _

/-- The width `n_nodes` read back from the stacked mask tensor equals the
padded width. -/
theorem headD_batch_stack_length (masks : List (List ℚ)) :
    ((batch_stack masks).headD []).length = maxLen masks := by
  cases masks with
  | nil => rfl
  | cons h t =>
    have hle : h.length ≤ maxLen (h :: t) := length_le_maxLen _ h (by simp)
    simp only [batch_stack, maxLen, List.map_cons, List.headD_cons, List.length_append,
      List.length_replicate] at hle ⊢
    omega

/-- Flattening a batch of `n × n` matrices, one per block, yields
`#blocks · n · n` entries. -/
theorem flatten_flatten_length_const (L : List (List Row)) (n : ℕ)
    (G : List Row → List (List ℚ)) (hG : ∀ b, ((G b).flatten).length = n * n) :
    ((L.map G).flatten.flatten).length = L.length * (n * n) := by
  induction L with
  | nil => simp
  | cons b rest ih =>
    rw [List.map_cons, List.flatten_cons, List.flatten_append, List.length_append,
      hG b, ih, List.length_cons]
    ring

/-- Claim C3: For every batch of transformed items, the edge mask produced by
`collate_fn` is, per batch element, zero on the diagonal and, at off-diagonal
position `(i, j)`, equal to `1` exactly when both atom `i` and atom `j` are
real (within the row count of that block, hence atom-mask one, not padding);
the result is the row-major flattening of `batch_size` matrices of size
`n × n`, so its total length is `batch_size · n · n`, `n` being the padded
atom count. -/
theorem C3_collate_edge_mask (blocks : List (List Row)) (atomic_number_list : List ℚ)
    (include_charges sequential : Bool) :
    let masks := (blocks.map
        (geomDrugsTransform atomic_number_list include_charges sequential)).map
      (fun item => item.atom_mask)
    let n := maxLen masks
    collateEdgeMask masks
      = (blocks.map (fun b =>
          (List.range n).map (fun i =>
            (List.range n).map (fun j =>
              if i ≠ j ∧ i < b.length ∧ j < b.length then (1 : ℚ) else 0)))).flatten.flatten
    ∧ (collateEdgeMask masks).length = blocks.length * (n * n) := by
  intro masks n
  have hmasks : masks = blocks.map (fun b => List.replicate b.length (1 : ℚ)) := by
    simp only [masks, List.map_map]
    rfl
  have hmain : collateEdgeMask masks
      = (blocks.map (fun b =>
          (List.range n).map (fun i =>
            (List.range n).map (fun j =>
              if i ≠ j ∧ i < b.length ∧ j < b.length then (1 : ℚ) else 0)))).flatten.flatten := by
    rw [collateEdgeMask]
    have hnn : ((batch_stack masks).headD []).length = n := headD_batch_stack_length masks
    rw [hnn]
    congr 1
    congr 1
    have hfold : (masks.map List.length).foldr max 0 = n := rfl
    have hstack : batch_stack masks
        = blocks.map (fun b =>
            List.replicate b.length (1 : ℚ) ++ List.replicate (n - b.length) 0) := by
      simp only [batch_stack, hfold]
      rw [hmasks, List.map_map]
      refine List.map_congr_left ?_
      intro b _
      simp only [Function.comp_apply, List.length_replicate]
    rw [hstack, List.map_map]
    refine List.map_congr_left ?_
    intro b hb
    simp only [Function.comp_apply]
    refine List.map_congr_left ?_
    intro i _
    refine List.map_congr_left ?_
    intro j _
    rw [getD_padded_mask, getD_padded_mask]
    simp only [torchEyeBool, beq_iff_eq]
    by_cases hij : i = j
    · subst hij
      simp
    · by_cases hi : i < b.length
      · by_cases hj : j < b.length
        · simp [hij, hi, hj]
        · simp [hij, hi, hj]
      · simp [hij, hi]
  refine ⟨hmain, ?_⟩
  rw [hmain]
  refine flatten_flatten_length_const blocks n _ ?_
  intro b
  rw [List.length_flatten, List.map_map]
  have hconst : (List.length ∘ fun i =>
      List.map (fun j => if i ≠ j ∧ i < b.length ∧ j < b.length then (1 : ℚ) else 0)
        (List.range n)) = fun _ => n := by
    funext i
    simp
  rw [hconst, List.map_const', List.sum_replicate, List.length_range, smul_eq_mul]

/-! ## Claims C5 and C2: the size-sorted dataset and the sequential sampler -/

/-- Reading a list back through its index range reproduces the list. -/
theorem range_map_getD (l : List ℕ) :
    (List.range l.length).map (fun i => l.getD i 0) = l := by
  refine List.ext_get (by simp) ?_
  intro k h1 h2
  simp only [List.get_eq_getElem, List.getElem_map, List.getElem_range]
  rw [List.getD_eq_getElem _ _ h2]

/-- A guarded index comprehension over in-range indices is a plain map. -/
theorem filterMap_getq_eq_map_getD (l : List (List β)) (is : List ℕ)
    (h : ∀ i ∈ is, i < l.length) :
    is.filterMap (fun i => l.get? i) = is.map (fun i => l.getD i []) := by
  induction is with
  | nil => rfl
  | cons i tl ih =>
    have hi : i < l.length := h i (List.mem_cons_self i tl)
    rw [List.filterMap_cons, List.map_cons, List.get?_eq_get hi,
      ih (fun j hj => h j (List.mem_cons_of_mem i hj))]
    rw [List.getD_eq_getElem _ _ hi]
    simp

/-- The block row counts of the constructed dataset are `np.sort` of the
input row counts: reordering the blocks by `np.argsort` of the lengths sorts
the lengths. -/
theorem dataset_sizes_eq (data_list : List (List β)) :
    (geomDrugsDatasetInit data_list).data_list.map List.length
      = npSortNat (data_list.map List.length) := by
  set lengths := data_list.map List.length with hlengths
  have hmem : ∀ i ∈ npArgsortNat lengths, i < data_list.length := by
    intro i hi
    have : i ∈ List.range lengths.length := by
      simpa [npArgsortNat] using (List.mem_insertionSort _).mp hi
    simpa [hlengths] using List.mem_range.mp this
  have h1 : (geomDrugsDatasetInit data_list).data_list
      = (npArgsortNat lengths).map (fun i => data_list.getD i []) := by
    simp only [geomDrugsDatasetInit, ← hlengths]
    exact filterMap_getq_eq_map_getD data_list _ hmem
  rw [h1, List.map_map]
  have h2 : (List.length ∘ fun i => data_list.getD i []) = fun i => lengths.getD i 0 := by
    funext i
    simp only [Function.comp_apply, hlengths]
    exact (List.getD_map data_list [] List.length).symm
  rw [h2]
  have h3 : (npArgsortNat lengths).map (fun i => lengths.getD i 0)
      = ((List.range lengths.length).map (fun i => lengths.getD i 0)).insertionSort
          (fun a b => a ≤ b) := by
    refine List.map_insertionSort _ _ _ _ ?_
    intro a _ b _
    exact Iff.rfl
  rw [h3, range_map_getD, npSortNat]

/-- The dataset keeps as many blocks as it was given. -/
theorem dataset_length_eq (data_list : List (List β)) :
    (geomDrugsDatasetInit data_list).data_list.length = data_list.length := by
  have h := congrArg List.length (dataset_sizes_eq data_list)
  simp only [List.length_map, npSortNat, List.length_insertionSort] at h
  exact h

/-- The dataset block row counts are non-decreasing. -/
theorem dataset_sizes_sorted (data_list : List (List β)) :
    ((geomDrugsDatasetInit data_list).data_list.map List.length).Sorted (· ≤ ·) := by
  rw [dataset_sizes_eq]
  exact List.sorted_insertionSort _ _

/-- Consecutive entries of the sorted size list are non-decreasing. -/
theorem npSortNat_consecutive_le (l : List ℕ) (q : ℕ)
    (hq : q + 1 < (npSortNat l).length) :
    (npSortNat l).getD q 0 ≤ (npSortNat l).getD (q + 1) 0 := by
  have hs : (npSortNat l).Sorted (· ≤ ·) := List.sorted_insertionSort _ _
  have hq0 : q < (npSortNat l).length := Nat.lt_of_succ_lt hq
  rw [List.getD_eq_getElem _ _ hq0, List.getD_eq_getElem _ _ hq]
  have h := List.pairwise_iff_get.mp hs ⟨q, hq0⟩ ⟨q + 1, hq⟩ (by simp)
  simpa using h

/-- The recorded `split_indices` are exactly the nonzero positions at which
the sorted size sequence strictly increases. -/
theorem dataset_split_indices_eq (data_list : List (List β)) :
    (geomDrugsDatasetInit data_list).split_indices
      = (List.range data_list.length).filter
          (fun p => decide (p ≠ 0 ∧
            (npSortNat (data_list.map List.length)).getD (p - 1) 0
              < (npSortNat (data_list.map List.length)).getD p 0)) := by
  set s := npSortNat (data_list.map List.length) with hs
  have hlen : s.length = data_list.length := by
    simp [hs, npSortNat, List.length_insertionSort]
  have hsplit : (geomDrugsDatasetInit data_list).split_indices
      = (npUniqueFirstIndices s).drop 1 := rfl
  rw [hsplit, npUniqueFirstIndices, hlen]
  cases hn : data_list.length with
  | zero => simp
  | succ m =>
    rw [List.range_succ_eq_map]
    rw [List.filter_cons_of_pos (by simp), List.drop_one, List.tail_cons,
      List.filter_cons_of_neg (by simp)]
    rw [List.filter_map, List.filter_map]
    congr 1
    refine List.filter_congr ?_
    intro q hq
    have hq' : q < m := List.mem_range.mp hq
    have hle : s.getD q 0 ≤ s.getD (q + 1) 0 := by
      refine npSortNat_consecutive_le _ q ?_
      rw [← hs, hlen, hn]
      omega
    simp only [List.getD_eq_getElem?_getD] at hle ⊢
    by_cases hqe : s[q]?.getD 0 = s[q + 1]?.getD 0
    · simp [Function.comp_apply, Nat.succ_eq_add_one, Nat.add_sub_cancel, hqe]
    · have hlt : s[q]?.getD 0 < s[q + 1]?.getD 0 := lt_of_le_of_ne hle hqe
      simp [Function.comp_apply, Nat.succ_eq_add_one, Nat.add_sub_cancel, hqe, hlt]

/-- A nonzero in-range position absent from `split_indices` separates two
equal sizes. -/
theorem size_eq_of_not_mem_split_indices (data_list : List (List β)) (p : ℕ)
    (hp : 0 < p) (hpn : p < data_list.length)
    (h : p ∉ (geomDrugsDatasetInit data_list).split_indices) :
    ((geomDrugsDatasetInit data_list).data_list.map List.length).getD (p - 1) 0
      = ((geomDrugsDatasetInit data_list).data_list.map List.length).getD p 0 := by
  rw [dataset_sizes_eq]
  by_contra hne
  apply h
  rw [dataset_split_indices_eq]
  refine List.mem_filter.mpr ⟨List.mem_range.mpr hpn, ?_⟩
  have hlen : (npSortNat (data_list.map List.length)).length = data_list.length := by
    simp [npSortNat, List.length_insertionSort]
  have hle : (npSortNat (data_list.map List.length)).getD (p - 1) 0
      ≤ (npSortNat (data_list.map List.length)).getD p 0 := by
    have hp1 : p - 1 + 1 = p := by omega
    have := npSortNat_consecutive_le (data_list.map List.length) (p - 1)
      (by rw [hlen]; omega)
    rwa [hp1] at this
  simp only [decide_eq_true_eq]
  exact ⟨by omega, by omega⟩

/-- Claim C5: After construction the stored block row counts are non-decreasing,
and `split_indices` is exactly the list of nonzero positions at which the row
count strictly exceeds the row count at the preceding position. -/
theorem C5_sorted_sizes_and_boundaries (data_list : List (List β)) :
    ((geomDrugsDatasetInit data_list).data_list.map List.length).Sorted (· ≤ ·)
    ∧ (geomDrugsDatasetInit data_list).split_indices
      = (List.range (geomDrugsDatasetInit data_list).data_list.length).filter
          (fun p => decide (p ≠ 0 ∧
            ((geomDrugsDatasetInit data_list).data_list.map List.length).getD (p - 1) 0
              < ((geomDrugsDatasetInit data_list).data_list.map List.length).getD p 0)) := by
  constructor
  · exact dataset_sizes_sorted data_list
  · rw [dataset_length_eq, dataset_split_indices_eq]
    refine List.filter_congr ?_
    intro p _
    rw [dataset_sizes_eq]

/-- Homogeneity invariant of the `CustomBatchSampler` loop: if every position
not recorded in `split_indices` joins two equal sizes, then along the
consecutive index stream `k, k+1, …` every emitted batch is size-homogeneous,
provided the accumulated batch is homogeneous and (when more indices remain)
agrees in size with the next index. -/
theorem customBatchesAux_homogeneous (sizes : List ℕ) (split_indices : List ℕ)
    (batch_size : ℕ) (drop_last : Bool)
    (P : ∀ p, 0 < p → p < sizes.length → p ∉ split_indices →
      sizes.getD (p - 1) 0 = sizes.getD p 0) :
    ∀ (m k : ℕ) (acc : List ℕ), k + m = sizes.length →
      (∀ i ∈ acc, ∀ j ∈ acc, sizes.getD i 0 = sizes.getD j 0) →
      (0 < m → ∀ i ∈ acc, sizes.getD i 0 = sizes.getD k 0) →
      ∀ batch ∈ customBatchesAux batch_size drop_last split_indices (List.range' k m) acc,
        ∀ i ∈ batch, ∀ j ∈ batch, sizes.getD i 0 = sizes.getD j 0 := by
  intro m
  induction m with
  | zero =>
    intro k acc _ h1 _ batch hb
    rw [List.range'_zero] at hb
    rw [customBatchesAux] at hb
    by_cases hc : 0 < acc.length ∧ drop_last = false
    · rw [if_pos hc] at hb
      rcases List.mem_singleton.mp hb with rfl
      exact h1
    · rw [if_neg hc] at hb
      cases hb
  | succ m ih =>
    intro k acc hkm h1 h2 batch hb
    have hacc : ∀ i ∈ acc ++ [k], sizes.getD i 0 = sizes.getD k 0 := by
      intro i hi
      rcases List.mem_append.mp hi with hi | hi
      · exact h2 (Nat.succ_pos m) i hi
      · rcases List.mem_singleton.mp hi with rfl
        rfl
    have hacc2 : ∀ i ∈ acc ++ [k], ∀ j ∈ acc ++ [k],
        sizes.getD i 0 = sizes.getD j 0 := by
      intro i hi j hj
      rw [hacc i hi, hacc j hj]
    rw [List.range'_succ] at hb
    rw [customBatchesAux] at hb
    by_cases hc : (acc ++ [k]).length = batch_size ∨ k + 1 ∈ split_indices
    · simp only [if_pos hc] at hb
      rcases List.mem_cons.mp hb with rfl | hb
      · exact hacc2
      · refine ih (k + 1) [] (by omega) (by simp) (by simp) batch hb
    · simp only [if_neg hc] at hb
      refine ih (k + 1) (acc ++ [k]) (by omega) hacc2 ?_ batch hb
      intro hm i hi
      push_neg at hc
      have hk1 : sizes.getD k 0 = sizes.getD (k + 1) 0 := by
        have := P (k + 1) (Nat.succ_pos k) (by omega) hc.2
        simpa using this
      rw [hacc i hi, hk1]

/-- Claim C2: For every block list, the dataset built by
`GeomDrugsDataset.__init__` (blocks sorted ascending by row count, boundaries
recorded) together with `CustomBatchSampler` over a sequential (unshuffled)
sampler emits only size-homogeneous batches: any two indices in one emitted
batch address blocks with the same row count, for every batch size and either
`drop_last` setting. -/
theorem C2_sequential_batches_homogeneous (data_list : List (List β))
    (batch_size : ℕ) (drop_last : Bool) :
    ∀ batch ∈ customBatchSamplerIter batch_size drop_last
        (geomDrugsDatasetInit data_list).split_indices
        (sequentialSampler (geomDrugsDatasetInit data_list).data_list.length),
      ∀ i ∈ batch, ∀ j ∈ batch,
        ((geomDrugsDatasetInit data_list).data_list.map List.length).getD i 0
          = ((geomDrugsDatasetInit data_list).data_list.map List.length).getD j 0 := by
  intro batch hb
  set sizes := (geomDrugsDatasetInit data_list).data_list.map List.length with hsizes
  have hslen : sizes.length = data_list.length := by
    rw [hsizes, List.length_map]
    exact dataset_length_eq data_list
  have P : ∀ p, 0 < p → p < sizes.length →
      p ∉ (geomDrugsDatasetInit data_list).split_indices →
      sizes.getD (p - 1) 0 = sizes.getD p 0 := by
    intro p hp hpn hmem
    exact size_eq_of_not_mem_split_indices data_list p hp (by omega) hmem
  have hiter : customBatchSamplerIter batch_size drop_last
        (geomDrugsDatasetInit data_list).split_indices
        (sequentialSampler (geomDrugsDatasetInit data_list).data_list.length)
      = customBatchesAux batch_size drop_last
          (geomDrugsDatasetInit data_list).split_indices
          (List.range' 0 sizes.length) [] := by
    rw [customBatchSamplerIter, sequentialSampler, List.range_eq_range']
    rw [hsizes, List.length_map]
  rw [hiter] at hb
  exact customBatchesAux_homogeneous sizes _ batch_size drop_last P sizes.length 0 []
    (by omega) (by simp) (by simp) batch hb

/-- Witness for C2: the scenario of the spec, sizes
`[3, 5, 3, 7, 5, 3, 5, 7, 3, 5]`, batch size 3; the first emitted batch is
`[0, 1, 2]`, whose members all have row count 3 after sorting. -/
theorem C2_sequential_batches_homogeneous_witness :
    [0, 1, 2] ∈ customBatchSamplerIter 3 false
        (geomDrugsDatasetInit ((([3, 5, 3, 7, 5, 3, 5, 7, 3, 5] : List ℕ).map
            (fun k => List.replicate k (0 : ℕ))))).split_indices
        (sequentialSampler (geomDrugsDatasetInit (([3, 5, 3, 7, 5, 3, 5, 7, 3, 5] : List ℕ).map
            (fun k => List.replicate k (0 : ℕ)))).data_list.length)
    ∧ ((geomDrugsDatasetInit (([3, 5, 3, 7, 5, 3, 5, 7, 3, 5] : List ℕ).map
          (fun k => List.replicate k (0 : ℕ)))).data_list.map List.length).getD 0 0
      = ((geomDrugsDatasetInit (([3, 5, 3, 7, 5, 3, 5, 7, 3, 5] : List ℕ).map
          (fun k => List.replicate k (0 : ℕ)))).data_list.map List.length).getD 2 0 :=
  ⟨by decide,
   C2_sequential_batches_homogeneous (([3, 5, 3, 7, 5, 3, 5, 7, 3, 5] : List ℕ).map
      (fun k => List.replicate k (0 : ℕ))) 3 false [0, 1, 2] (by decide)
     0 (by decide) 2 (by decide)⟩

/-! ## Claim C7: the flatten/re-split round trip -/

/-- A read inside a list is a member of it. -/
theorem getD_mem_of_lt (l : List Row) (p : ℕ) (hp : p < l.length) :
    l.getD p [] ∈ l := by
  rw [List.getD_eq_getElem _ _ hp]
  exact List.getElem_mem hp

/-- A block whose rows all carry one molecule id has no interior boundary. -/
theorem idBoundaries_const (b : List Row)
    (hconst : ∀ r ∈ b, ∀ r' ∈ b, molId r = molId r') :
    idBoundaries b = [] := by
  rw [idBoundaries]
  have hf : (List.range (b.length - 1)).filter
      (fun p => decide (molId (b.getD p []) - molId (b.getD (p + 1) []) ≠ 0)) = [] := by
    rw [List.filter_eq_nil_iff]
    intro p hp
    have hp' : p < b.length - 1 := List.mem_range.mp hp
    have h1 : b.getD p [] ∈ b := getD_mem_of_lt b p (by omega)
    have h2 : b.getD (p + 1) [] ∈ b := getD_mem_of_lt b (p + 1) (by omega)
    simp only [decide_eq_true_eq, not_not]
    rw [hconst _ h1 _ h2, sub_self]
  rw [hf]
  rfl

/-- The head default of an append starts in the first part when it is
nonempty. -/
theorem headD_append_of_ne_nil (b x : List Row) (hb : b ≠ []) :
    (b ++ x).headD [] = b.headD [] := by
  cases b with
  | nil => exact absurd rfl hb
  | cons r tl => rfl

/-- Boundary detection distributes over the first block: on `b ++ rest` with
`b` a nonempty constant-id block and `rest` nonempty starting with a
different id, the first boundary is `b.length` and the remaining boundaries
are those of `rest`, shifted. -/
theorem idBoundaries_append (b rest : List Row) (hb : b ≠ []) (hrest : rest ≠ [])
    (hconst : ∀ r ∈ b, ∀ r' ∈ b, molId r = molId r')
    (hdiff : molId (b.headD []) ≠ molId (rest.headD [])) :
    idBoundaries (b ++ rest)
      = b.length :: (idBoundaries rest).map (fun p => p + b.length) := by
  have hk : 0 < b.length := List.length_pos.mpr hb
  have hm : 0 < rest.length := List.length_pos.mpr hrest
  set k := b.length with hkdef
  set m := rest.length with hmdef
  have hlen : (b ++ rest).length - 1 = k + (m - 1) := by
    rw [List.length_append]
    omega
  rw [idBoundaries, hlen, List.range_add, List.filter_append]
  have hleft : (List.range k).filter
      (fun p => decide (molId ((b ++ rest).getD p [])
        - molId ((b ++ rest).getD (p + 1) []) ≠ 0)) = [k - 1] := by
    rw [show k = (k - 1) + 1 by omega, List.range_succ, List.filter_append]
    have h0 : (List.range (k - 1)).filter
        (fun p => decide (molId ((b ++ rest).getD p [])
          - molId ((b ++ rest).getD (p + 1) []) ≠ 0)) = [] := by
      rw [List.filter_eq_nil_iff]
      intro p hp
      have hp' : p < k - 1 := List.mem_range.mp hp
      rw [List.getD_append _ _ _ _ (by omega), List.getD_append _ _ _ _ (by omega)]
      have h1 : b.getD p [] ∈ b := getD_mem_of_lt b p (by omega)
      have h2 : b.getD (p + 1) [] ∈ b := getD_mem_of_lt b (p + 1) (by omega)
      simp only [decide_eq_true_eq, not_not]
      rw [hconst _ h1 _ h2, sub_self]
    have h1 : (decide (molId ((b ++ rest).getD (k - 1) [])
        - molId ((b ++ rest).getD (k - 1 + 1) []) ≠ 0)) = true := by
      rw [List.getD_append _ _ _ _ (by omega)]
      rw [show k - 1 + 1 = k by omega]
      rw [List.getD_append_right _ _ _ _ (by omega)]
      rw [show k - k = 0 by omega]
      have hbmem : b.getD (k - 1) [] ∈ b := getD_mem_of_lt b (k - 1) (by omega)
      have hbhead : b.headD [] ∈ b := by
        have := getD_mem_of_lt b 0 (by omega)
        cases b with
        | nil => exact absurd rfl hb
        | cons r tl => exact List.mem_cons_self r tl
      have hhead : molId (b.getD (k - 1) []) = molId (b.headD []) :=
        hconst _ hbmem _ hbhead
      have hr0 : rest.getD 0 [] = rest.headD [] := by
        cases rest with
        | nil => exact absurd rfl hrest
        | cons r tl => rfl
      rw [hhead, hr0]
      simpa [sub_ne_zero] using hdiff
    simp only [List.filter_cons, List.filter_nil, h1, if_pos]
    rw [h0]
    rfl
  have hright : ((List.range (m - 1)).map (fun x => k + x)).filter
      (fun p => decide (molId ((b ++ rest).getD p [])
        - molId ((b ++ rest).getD (p + 1) []) ≠ 0))
      = ((List.range (m - 1)).filter
          (fun q => decide (molId (rest.getD q [])
            - molId (rest.getD (q + 1) []) ≠ 0))).map (fun x => k + x) := by
    rw [List.filter_map]
    congr 1
    refine List.filter_congr ?_
    intro q _
    simp only [Function.comp_apply]
    rw [List.getD_append_right _ _ _ _ (by omega),
      List.getD_append_right _ _ _ _ (by omega)]
    rw [show k + q - k = q by omega, show k + q + 1 - k = q + 1 by omega]
  rw [hleft, hright, List.map_append, List.map_cons, List.map_nil,
    show k - 1 + 1 = k by omega, List.singleton_append]
  rw [idBoundaries, List.map_map, List.map_map, ← hmdef]
  congr 1
  refine List.map_congr_left ?_
  intro p _
  simp only [Function.comp_apply]
  omega

/-- Claim C7, counterexample: The round-trip law fails for the empty block
list, which vacuously satisfies every hypothesis of the claim: the flat table
is empty and `np.split` with no cut point returns one (empty) section, so
re-splitting yields `[[]]`, not the original empty partition. -/
theorem C7_roundtrip_fails_on_empty_list :
    npSplit (List.flatten ([] : List (List Row)))
        (idBoundaries (List.flatten ([] : List (List Row))))
      ≠ ([] : List (List Row)) := by
  rw [List.flatten_nil, show idBoundaries [] = [] from rfl, npSplit_nil]
  simp

/-- Claim C7, amended: For every NONEMPTY list of nonempty molecule blocks in
which each block's rows share one molecule id and consecutive blocks carry
different molecule ids, concatenating the blocks into a flat table and then
re-splitting at the positions where the molecule id changes between
consecutive rows reproduces the original block partition exactly.  (The
amendment excludes only the empty block list, where `np.split` returns one
empty section instead of no section.) -/
theorem C7_roundtrip_amended (blocks : List (List Row)) (hne : blocks ≠ [])
    (hblocks : ∀ b ∈ blocks, b ≠ [])
    (hconst : ∀ b ∈ blocks, ∀ r ∈ b, ∀ r' ∈ b, molId r = molId r')
    (hadj : List.Chain' (fun b b' => molId (b.headD []) ≠ molId (b'.headD [])) blocks) :
    npSplit blocks.flatten (idBoundaries blocks.flatten) = blocks := by
  induction blocks with
  | nil => exact absurd rfl hne
  | cons b rest ih =>
    have hbne : b ≠ [] := hblocks b (List.mem_cons_self b rest)
    cases rest with
    | nil =>
      rw [List.flatten_cons, List.flatten_nil, List.append_nil]
      rw [idBoundaries_const b (hconst b (List.mem_cons_self b [])), npSplit_nil]
    | cons b' rest' =>
      have hb'ne : b' ≠ [] := hblocks b' (by simp)
      have hRflat : (b' :: rest').flatten ≠ [] := by
        rw [List.flatten_cons]
        intro hc
        exact hb'ne (List.append_eq_nil.mp hc).1
      have hchain := List.chain'_cons.mp hadj
      have hdiff : molId (b.headD []) ≠ molId ((b' :: rest').flatten.headD []) := by
        rw [List.flatten_cons, headD_append_of_ne_nil b' _ hb'ne]
        exact hchain.1
      rw [List.flatten_cons]
      rw [idBoundaries_append b ((b' :: rest').flatten) hbne hRflat
        (hconst b (List.mem_cons_self b _)) hdiff]
      rw [npSplit_cons, List.take_left, List.drop_left]
      have hmaps : (((idBoundaries (b' :: rest').flatten).map
            (fun p => p + b.length)).map (fun j => j - b.length))
          = idBoundaries (b' :: rest').flatten := by
        rw [List.map_map]
        have hid : ∀ p ∈ idBoundaries (b' :: rest').flatten,
            ((fun j => j - b.length) ∘ fun p => p + b.length) p = p := by
          intro p _
          simp only [Function.comp_apply]
          omega
        rw [List.map_congr_left hid]
        simp
      rw [hmaps]
      rw [ih (by simp) (fun c hc => hblocks c (List.mem_cons_of_mem b hc))
        (fun c hc => hconst c (List.mem_cons_of_mem b hc)) hchain.2]

/-- Witness for the amended C7: two one-row blocks with molecule ids 0 and 1
survive the round trip. -/
theorem C7_roundtrip_amended_witness :
    npSplit (List.flatten [[[(0 : ℚ), 5]], [[(1 : ℚ), 6]]])
        (idBoundaries (List.flatten [[[(0 : ℚ), 5]], [[(1 : ℚ), 6]]]))
      = [[[(0 : ℚ), 5]], [[(1 : ℚ), 6]]] :=
  C7_roundtrip_amended [[[(0 : ℚ), 5]], [[(1 : ℚ), 6]]] (by decide) (by decide)
    (by decide)
    (List.chain'_cons.mpr ⟨by decide, List.chain'_singleton _⟩)

end EDM
